import Mathlib

/-!
Shallow embedding of the canvas-frames-to-video server (`server.js` and the
`CanvasVideo` class variant), together with proofs about its frame-receiving,
frame-sequencing, video-assembly and cleanup behaviour.

Modelling conventions:
* JS strings are `List Char`.
* File contents are `List ℕ` (abstract bytes).
* A session directory is an association list from filename to content
  (`readdir` order = list order, which is arbitrary and quantified over).
* JS numbers obtained from parsing decimal numerals are modelled as exact
  rationals in unreduced `num/den` form (`JsNum`); the sort comparator only
  ever inspects the sign of a difference, which this representation captures
  exactly for the decimal numerals the system manipulates.
* External processes (`file`, `ffmpeg`) are oracles: an outcome is either an
  `exit` event with an exit code and captured stdout, or an `error` (spawn
  failure) event, matching the two events `waitForProcess` subscribes to.
* `fs.rename` / `fs.writeFile` are modelled as operations on the association
  list; `rename` replaces the target entry, as POSIX rename does.  The
  `Promise.all` of renames in `sortFrameFiles` is modelled as applying the
  renames sequentially in the order they are issued (ascending sorted order);
  completion-order nondeterminism of the real event loop is noted where
  relevant.
-/

namespace CanvasFrames

abbrev Chars := List Char

abbrev Bytes := List ℕ

/-- A session directory: association of filename to file content. -/
abbrev Dir := List (Chars × Bytes)

/-- The fixed PNG data-URL marker the client messages carry
(`'data:image/png;base64,'` in `writeFrameToFile`). -/
def markerChars : Chars := "data:image/png;base64,".data

/-- The literal `'.png'` used both as the stored-file suffix and as the
pattern of `filename.replace('.png', '')` in the sort comparator. -/
def pngChars : Chars := ".png".data

/-- The literal `'.mp4'` of the video artifact filename. -/
def mp4Chars : Chars := ".mp4".data

/-- Decimal digit test (characters `'0'..'9'`). -/
def isDigitCh (c : Char) : Bool := decide (48 ≤ c.toNat) && decide (c.toNat ≤ 57)

/-- Numeric value of a decimal digit character. -/
def digitVal (c : Char) : ℕ := c.toNat - 48

/-- Decimal digit character for a value `< 10`. -/
def digitChar (d : ℕ) : Char := Char.ofNat (48 + d)

/-- Little-endian decimal digits of a natural number (fuel-indexed so that it
is structurally recursive; the fuel `n + 1` always suffices). -/
def toDigitsGo : ℕ → ℕ → List Char
  | 0, _ => []
  | fuel + 1, n => if n < 10 then [digitChar n] else digitChar (n % 10) :: toDigitsGo fuel (n / 10)

/-- Decimal rendering of a natural number; models the JS template literal
`${i}` applied to a nonnegative integer. -/
def natRepr (n : ℕ) : List Char := (toDigitsGo (n + 1) n).reverse

/-- The canonical frame filename `${i}.png` used as a rename target in
`sortFrameFiles`. -/
def canonPng (n : ℕ) : Chars := natRepr n ++ pngChars

/-- Parse a nonempty all-digit character list as a natural number. -/
def parseNatChars (l : Chars) : Option ℕ :=
  if l = [] then none
  else if l.all isDigitCh then some (l.foldl (fun acc c => acc * 10 + digitVal c) 0) else none

/-- Model of JS `String.prototype.replace` with a string pattern and empty
replacement: remove the first occurrence of `pat`. -/
def replaceFirst (pat : List Char) : List Char → List Char
  | [] => []
  | c :: cs =>
    if pat.isPrefixOf (c :: cs) then (c :: cs).drop pat.length
    else c :: replaceFirst pat cs

/-- Fuel-indexed worker for `splitOnL`; the fuel `l.length + 1` always
suffices for a nonempty separator. -/
def splitGo (sep : Chars) : ℕ → Chars → List Chars
  | 0, l => [l]
  | fuel + 1, l =>
    match l with
    | [] => [[]]
    | c :: cs =>
      if sep.isPrefixOf (c :: cs) then [] :: splitGo sep fuel ((c :: cs).drop sep.length)
      else
        match splitGo sep fuel cs with
        | [] => [[]]
        | p :: ps => (c :: p) :: ps

/-- Model of JS `String.prototype.split` with a nonempty string separator:
non-overlapping left-to-right splitting on every occurrence. -/
def splitOnL (sep l : Chars) : List Chars :=
  if sep = [] then [l] else splitGo sep (l.length + 1) l

/-- Exact-rational model of the JS numbers produced by converting decimal
numerals; kept in unreduced `num/den` form (`den` is a power of ten). -/
structure JsNum where
  num : Int
  den : ℕ
deriving DecidableEq

/-- Difference of two `JsNum`s by cross-multiplication. -/
def JsNum.sub (a b : JsNum) : JsNum := ⟨a.num * b.den - b.num * a.den, a.den * b.den⟩

/-- Sign test `≤ 0` of a `JsNum` (the denominators are positive). -/
def JsNum.nonpos (a : JsNum) : Bool := decide (a.num ≤ 0)

/-- Negation of a `JsNum`. -/
def JsNum.neg (a : JsNum) : JsNum := ⟨-a.num, a.den⟩

/-- Parse an unsigned decimal numeral, with an optional fractional part after
a single `'.'`, into a `JsNum`; `none` models `NaN`. -/
def jsToNumPos (s : Chars) : Option JsNum :=
  match splitOnL ['.'] s with
  | [ip] => (parseNatChars ip).map (fun n => ⟨(n : Int), 1⟩)
  | [ip, fp] =>
    if ip = [] ∧ fp = [] then none
    else
      match (if ip = [] then some 0 else parseNatChars ip),
            (if fp = [] then some 0 else parseNatChars fp) with
      | some i, some f => some ⟨(i : Int) * (10 : Int) ^ fp.length + (f : Int), 10 ^ fp.length⟩
      | _, _ => none
  | _ => none

/-- Model of JS unary-`+` numeric conversion on the optionally signed decimal
numerals the system manipulates; `none` models `NaN`. -/
def jsToNum (s : Chars) : Option JsNum :=
  match s with
  | [] => none
  | c :: rest =>
    if c = '-' then (jsToNumPos rest).map JsNum.neg
    else if c = '+' then jsToNumPos rest
    else jsToNumPos (c :: rest)

/-- The numeric key the sort comparator derives from a filename:
`+filename.replace('.png', '')`. -/
def keyOfName (nm : Chars) : Option JsNum := jsToNum (replaceFirst pngChars nm)

/-- Model of the comparator `(a, b) => +a.replace('.png','') - +b.replace('.png','')`
as a boolean "a does not come after b": the comparator result is `≤ 0`.  A
`NaN` comparator result is treated as `0` by `Array.prototype.sort`, hence
`true` here. -/
def nameLe (a b : Chars) : Bool :=
  match keyOfName a, keyOfName b with
  | some x, some y => (x.sub y).nonpos
  | _, _ => true

/-- Insert an element into a list, after every element that compares
"not after" it. -/
def insertSorted (le : α → α → Bool) (x : α) : List α → List α
  | [] => [x]
  | y :: ys => if le y x then y :: insertSorted le x ys else x :: y :: ys

/-- Comparator-based insertion sort; models `Array.prototype.sort(cmp)`
(all inputs the claims exercise are tie-free, so tie order is immaterial). -/
def insSort (le : α → α → Bool) : List α → List α
  | [] => []
  | x :: xs => insertSorted le x (insSort le xs)

/-- Look up a filename in a directory. -/
def lookupD : Dir → Chars → Option Bytes
  | [], _ => none
  | e :: es, nm => if e.1 = nm then some e.2 else lookupD es nm

/-- Remove a filename from a directory. -/
def eraseD (d : Dir) (nm : Chars) : Dir := d.filter (fun e => decide (e.1 ≠ nm))

/-- Model of `fs.rename(src, dst)` inside one directory: fails if the source
is absent, otherwise moves the entry, replacing any existing target entry. -/
def fsRename (d : Dir) (src dst : Chars) : Option Dir :=
  match lookupD d src with
  | none => none
  | some c => some (eraseD (eraseD d src) dst ++ [(dst, c)])

/-- Apply a list of renames in order (the order `sortFrameFiles` issues them). -/
def renameAll : Dir → List (Chars × Chars) → Option Dir
  | d, [] => some d
  | d, (s, t) :: rest =>
    match fsRename d s t with
    | none => none
    | some d2 => renameAll d2 rest

/-- The rename operations `sortFrameFiles` issues: sort the directory listing
with the numeric-key comparator, then map the `i`-th sorted filename to the
target `${i}.png`. -/
def renamePlan (filenames : List Chars) : List (Chars × Chars) :=
  (insSort nameLe filenames).enum.map (fun p => (p.2, canonPng p.1))

/-- Model of `sortFrameFiles(sessionDir)`: list the directory, sort by the
parsed numeric key looking at each filename with `'.png'` removed, and rename
the `i`-th sorted file to `${i}.png`.  The renames are applied in issue
order. -/
def sortFrameFiles (d : Dir) : Option Dir := renameAll d (renamePlan (d.map Prod.fst))

/-- Specification-side order on key-content pairs: compare the numeric keys. -/
def leKey (p q : ℕ × Bytes) : Bool := decide (p.1 ≤ q.1)

/-- The directory storing the given key-content pairs under the canonical
filenames `${k}.png` (the filenames `writeFrameToFile` produces for
nonnegative-integer keys in canonical decimal form). -/
def canonDir (frames : List (ℕ × Bytes)) : Dir :=
  frames.map (fun p => (canonPng p.1, p.2))

/-- Numeric value (0–63) of a base64 alphabet character, `none` otherwise. -/
def b64Val (c : Char) : Option ℕ :=
  if 65 ≤ c.toNat ∧ c.toNat ≤ 90 then some (c.toNat - 65)
  else if 97 ≤ c.toNat ∧ c.toNat ≤ 122 then some (c.toNat - 71)
  else if 48 ≤ c.toNat ∧ c.toNat ≤ 57 then some (c.toNat + 4)
  else if c = '+' then some 62
  else if c = '/' then some 63
  else none

/-- Reassemble bytes from 6-bit values in groups of four (a trailing group of
two or three values yields one or two bytes). -/
def b64Groups : List ℕ → Bytes
  | a :: b :: c :: d :: rest =>
    (a * 4 + b / 16) :: ((b % 16) * 16 + c / 4) :: ((c % 4) * 64 + d) :: b64Groups rest
  | [a, b] => [a * 4 + b / 16]
  | [a, b, c] => [a * 4 + b / 16, (b % 16) * 16 + c / 4]
  | _ => []

/-- Model of Node's lenient `'base64'` decoding as used by
`fs.writeFile(path, imgStr, 'base64')`: characters outside the base64
alphabet (including padding) are skipped, then 6-bit groups are packed. -/
def b64decode (l : Chars) : Bytes := b64Groups (l.filterMap b64Val)

/-- Character of the base64 alphabet or padding, as produced by a valid
base64 encoder. -/
def isB64Sym (c : Char) : Bool := (b64Val c).isSome || decide (c = '=')

/-- Create or truncate-and-write a file in a directory. -/
def dirWrite (d : Dir) (nm : Chars) (content : Bytes) : Dir := eraseD d nm ++ [(nm, content)]

/-- Model of `writeFrameToFile(msg, sessionDir)`: split the message on the
PNG data-URL marker; the destructuring `[sequentialKey, imgStr]` takes the
first two parts.  The decoded second part is written to `${sequentialKey}.png`.
If the marker is absent, `imgStr` is `undefined` and the `fs.writeFile` call
rejects, writing nothing (`none`). -/
def writeFrameToFile (msg : Chars) (d : Dir) : Option Dir :=
  match splitOnL markerChars msg with
  | key :: imgStr :: _ => some (dirWrite d (key ++ pngChars) (b64decode imgStr))
  | _ => none

/-- Outcome of a spawned external process, as observed by `waitForProcess`:
either the `'exit'` event fired, with the process's exit code and the data
collected from its stdout, or the `'error'` (spawn failure) event fired. -/
inductive ProcOutcome where
  | exited (code : Int) (stdout : Chars)
  | spawnError
deriving DecidableEq

/-- Model of `waitForProcess(ps)`: resolves with the collected stdout when the
`'exit'` event fires — the exit code is not inspected — and rejects on the
`'error'` event. -/
def waitForProcess : ProcOutcome → Except Chars Chars
  | .exited _ out => .ok out
  | .spawnError => .error "spawn error".data

/-- Try to match the regex `(\d+ x \d+)` at the head of the list. -/
def dimsAt (l : Chars) : Option Chars :=
  let ds := l.takeWhile isDigitCh
  if ds = [] then none
  else
    match l.drop ds.length with
    | ' ' :: 'x' :: ' ' :: r2 =>
      let ds2 := r2.takeWhile isDigitCh
      if ds2 = [] then none else some (ds ++ ' ' :: 'x' :: ' ' :: ds2)
    | _ => none

/-- First match of the regex `(\d+ x \d+)` anywhere in the list
(`output.match(/(\d+ x \d+)/)`). -/
def findDims : Chars → Option Chars
  | [] => none
  | c :: cs =>
    match dimsAt (c :: cs) with
    | some m => some m
    | none => findDims cs

/-- `.replace(/\s/g, '')`: remove all whitespace. -/
def stripSpaces (l : Chars) : Chars := l.filter (fun c => decide (¬ c.isWhitespace))

/-- Model of `getFrameDimensions(sessionDir)`: on an empty directory
`filenames[0]` is `undefined` and `path.join` throws; otherwise run the
external `file` utility (outcome given by the oracle), fail on empty output
or no `(\d+ x \d+)` match, else return the match with whitespace removed. -/
def getFrameDimensions (d : Dir) (fileProc : ProcOutcome) : Except Chars Chars :=
  match d.map Prod.fst with
  | [] => .error "TypeError: path argument is undefined".data
  | _ :: _ =>
    match waitForProcess fileProc with
    | .error e => .error e
    | .ok out =>
      if out = [] then .error "Could not get image dimensions!".data
      else
        match findDims out with
        | none => .error "Could not get image dimensions!".data
        | some m => .ok (stripSpaces m)

/-- Model of `convertFramesToVideo`: probe dimensions, spawn ffmpeg, await its
exit; any exception inside the `try` is caught and rethrown as the string
`'Error converting frames!'`.  The exit code of ffmpeg is never inspected. -/
def convertFramesToVideo (d : Dir) (fileProc ffmpegProc : ProcOutcome) : Except Chars Unit :=
  match getFrameDimensions d fileProc with
  | .error _ => .error "Error converting frames!".data
  | .ok _ =>
    match waitForProcess ffmpegProc with
    | .error _ => .error "Error converting frames!".data
    | .ok _ => .ok ()

/-- Per-session view of the filesystem: the session's frame directory (if it
still exists) and the video artifact at the session's output path. -/
structure SessionFS where
  frameDir : Option Dir
  video : Option Bytes
deriving DecidableEq

/-- Whether the ffmpeg process actually runs and exits: the dimension probe
must succeed first, and the spawn must not error. -/
def ffmpegRan (d : Dir) (fileProc ffmpegProc : ProcOutcome) : Bool :=
  match getFrameDimensions d fileProc, ffmpegProc with
  | .ok _, .exited _ _ => true
  | _, _ => false

/-- Model of the `ws.on('close', ...)` handler body:
`await sortFrameFiles; await convertFramesToVideo; await deleteFrames` with no
`try`/`finally` — a rejection at any step skips the remaining steps.
`produced` is the artifact the external encoder leaves at the video output
path when it runs.  Returns the final filesystem state and the handler's
result. -/
def closePipeline (d : Dir) (fileProc ffmpegProc : ProcOutcome) (produced : Option Bytes) :
    SessionFS × Except Chars Unit :=
  match sortFrameFiles d with
  | none => (⟨some d, none⟩, .error "rename failed".data)
  | some d1 =>
    let video := if ffmpegRan d1 fileProc ffmpegProc then produced else none
    match convertFramesToVideo d1 fileProc ffmpegProc with
    | .error e => (⟨some d1, video⟩, .error e)
    | .ok _ => (⟨none, video⟩, .ok ())

/-- Events delivered to the handlers `handleClientConnection` registers:
`'message'` with the message text, and `'close'`. -/
inductive SessionEvent where
  | message (msg : Chars)
  | close
deriving DecidableEq

/-- Session state: the per-session filesystem and the number of times the
assembly pipeline (the close-handler body) has been invoked. -/
structure SessionState where
  fs : SessionFS
  video : Option Bytes := none
  pipelineRuns : ℕ
deriving DecidableEq

/-- Model of the registered event handlers: a `'message'` event stores a frame
(and nothing else — there is no reserved "done" message in the code); a
`'close'` event runs the assembly pipeline unconditionally. -/
def handleEvent (fileProc ffmpegProc : ProcOutcome) (produced : Option Bytes)
    (st : SessionState) : SessionEvent → SessionState
  | .message m =>
    match st.fs.frameDir with
    | some d =>
      match writeFrameToFile m d with
      | some d2 => { st with fs := { st.fs with frameDir := some d2 } }
      | none => st
    | none => st
  | .close =>
    match st.fs.frameDir with
    | some d =>
      { fs := (closePipeline d fileProc ffmpegProc produced).1,
        pipelineRuns := st.pipelineRuns + 1 }
    | none => { st with pipelineRuns := st.pipelineRuns + 1 }

/-- Session state right after `handleClientConnection` created the (empty)
session directory. -/
def initialSession : SessionState := ⟨⟨some [], none⟩, none, 0⟩

/-- Run a session: fold the registered handlers over the delivered events. -/
def runSession (fileProc ffmpegProc : ProcOutcome) (produced : Option Bytes)
    (evs : List SessionEvent) : SessionState :=
  evs.foldl (handleEvent fileProc ffmpegProc produced) initialSession

/-- An absolute filesystem path as a list of segments. -/
abbrev Path := List Chars

/-- A path-keyed filesystem store (for cross-directory reasoning). -/
abbrev Store := List (Path × Bytes)

/-- The segment `'..'`. -/
def dotdot : Chars := "..".data

/-- The segment `'.'`. -/
def dotSeg : Chars := ".".data

/-- Split a relative filename into segments on `'/'`. -/
def splitSlash (l : Chars) : List Chars := splitOnL ['/'] l

/-- Path normalization as performed by Node's `path.join`: drop empty and `.`
segments, resolve `..` against the preceding segment. -/
def normalizeSegs (segs : List Chars) : List Chars :=
  segs.foldl
    (fun acc seg =>
      if seg = [] ∨ seg = dotSeg then acc
      else if seg = dotdot then acc.dropLast
      else acc ++ [seg])
    []

/-- Model of `path.join(sessionDir, rel)` for an already-normalized absolute
`sessionDir`. -/
def pathJoin (dir : Path) (rel : Chars) : Path := normalizeSegs (dir ++ splitSlash rel)

/-- Look up a path in a store. -/
def lookupP : Store → Path → Option Bytes
  | [], _ => none
  | e :: es, p => if e.1 = p then some e.2 else lookupP es p

/-- Remove a path from a store. -/
def eraseP (st : Store) (p : Path) : Store := st.filter (fun e => decide (e.1 ≠ p))

/-- Create or truncate-and-write a file at a path. -/
def storeWrite (st : Store) (p : Path) (content : Bytes) : Store := eraseP st p ++ [(p, content)]

/-- Path-level model of `writeFrameToFile`: the written path is
`path.join(sessionDir, sequentialKey + '.png')`, which normalizes any `..`
segments a malicious key smuggles in. -/
def writeFrameToFileFS (msg : Chars) (sessionDir : Path) (st : Store) : Option Store :=
  match splitOnL markerChars msg with
  | key :: imgStr :: _ =>
    some (storeWrite st (pathJoin sessionDir (key ++ pngChars)) (b64decode imgStr))
  | _ => none

/-- The session's frame directory `path.join(outputDirPath, clientId)`. -/
def sessionDirPath (outputRoot clientId : Chars) : Path := [outputRoot, clientId]

/-- The session's video artifact path `path.join(outputDirPath, clientId + '.mp4')`. -/
def videoOutputPath (outputRoot clientId : Chars) : Path := [outputRoot, clientId ++ mp4Chars]

/-! ### Lemmas about digits and decimal numerals -/

theorem isDigitCh_ne_special {c : Char} (h : isDigitCh c = true) :
    c ≠ '.' ∧ c ≠ '-' ∧ c ≠ '+' ∧ c ≠ ':' ∧ c ≠ '/' := by
  refine ⟨?_, ?_, ?_, ?_, ?_⟩ <;> rintro rfl <;> revert h <;> decide

theorem digitChar_spec {d : ℕ} (h : d < 10) :
    isDigitCh (digitChar d) = true ∧ digitVal (digitChar d) = d := by
  interval_cases d <;> exact ⟨by decide, by decide⟩

theorem toDigitsGo_spec :
    ∀ fuel n, n < fuel →
      toDigitsGo fuel n ≠ [] ∧ (∀ c ∈ toDigitsGo fuel n, isDigitCh c = true) ∧
      ∀ acc : ℕ,
        (toDigitsGo fuel n).reverse.foldl (fun a c => a * 10 + digitVal c) acc
          = acc * 10 ^ (toDigitsGo fuel n).length + n := by
  intro fuel
  induction fuel with
  | zero => intro n hn; omega
  | succ fuel ih =>
    intro n hn
    by_cases h10 : n < 10
    · have heq : toDigitsGo (fuel + 1) n = [digitChar n] := by simp [toDigitsGo, h10]
      refine ⟨by simp [heq], ?_, ?_⟩
      · intro c hc
        rw [heq] at hc
        simp at hc
        subst hc
        exact (digitChar_spec h10).1
      · intro acc
        rw [heq]
        simp [(digitChar_spec h10).2]
    · have hpos : 0 < n := by omega
      have hrec : n / 10 < fuel := by
        have h1 : n / 10 < n := Nat.div_lt_self hpos (by omega)
        omega
      obtain ⟨hne, hdig, hval⟩ := ih (n / 10) hrec
      have heq : toDigitsGo (fuel + 1) n = digitChar (n % 10) :: toDigitsGo fuel (n / 10) := by
        simp [toDigitsGo, h10]
      have hm10 : n % 10 < 10 := Nat.mod_lt _ (by omega)
      refine ⟨by simp [heq], ?_, ?_⟩
      · intro c hc
        rw [heq] at hc
        rcases List.mem_cons.mp hc with hc | hc
        · subst hc; exact (digitChar_spec hm10).1
        · exact hdig c hc
      · intro acc
        rw [heq]
        rw [List.reverse_cons, List.foldl_append]
        rw [hval acc]
        simp only [List.foldl_cons, List.foldl_nil, List.length_cons]
        rw [(digitChar_spec hm10).2]
        calc (acc * 10 ^ (toDigitsGo fuel (n / 10)).length + n / 10) * 10 + n % 10
            = acc * (10 ^ (toDigitsGo fuel (n / 10)).length * 10) + (10 * (n / 10) + n % 10) := by
              ring
          _ = acc * 10 ^ ((toDigitsGo fuel (n / 10)).length + 1) + n := by
              rw [Nat.div_add_mod, pow_succ]

theorem natRepr_ne_nil (n : ℕ) : natRepr n ≠ [] := by
  have h := (toDigitsGo_spec (n + 1) n (by omega)).1
  simp only [natRepr, ne_eq, List.reverse_eq_nil_iff]
  exact h

theorem natRepr_digits {n : ℕ} : ∀ c ∈ natRepr n, isDigitCh c = true := by
  intro c hc
  have h := (toDigitsGo_spec (n + 1) n (by omega)).2.1
  exact h c (by simpa [natRepr] using hc)

theorem parse_natRepr (n : ℕ) : parseNatChars (natRepr n) = some n := by
  have hne : natRepr n ≠ [] := natRepr_ne_nil n
  have hall : (natRepr n).all isDigitCh = true := List.all_eq_true.mpr natRepr_digits
  have hval := (toDigitsGo_spec (n + 1) n (by omega)).2.2 0
  simp only [parseNatChars, if_neg hne, hall, if_pos]
  simp only [natRepr]
  rw [hval]
  simp

/-! ### Lemmas about `splitOnL` -/

theorem splitGo_no_occ {sep : Chars} {ch : Char} (hch : ch ∈ sep) :
    ∀ fuel (l : Chars), (∀ x ∈ l, x ≠ ch) → splitGo sep fuel l = [l] := by
  intro fuel
  induction fuel with
  | zero => intro l _; rfl
  | succ fuel ih =>
    intro l h
    match l with
    | [] => rfl
    | c :: cs =>
      have hp : sep.isPrefixOf (c :: cs) = false := by
        cases hb : sep.isPrefixOf (c :: cs)
        · rfl
        · exfalso
          rw [List.isPrefixOf_iff_prefix] at hb
          exact h ch (hb.subset hch) rfl
      have hcs : ∀ x ∈ cs, x ≠ ch := fun x hx => h x (List.mem_cons_of_mem _ hx)
      simp only [splitGo, hp, Bool.false_eq_true, if_false, ih cs hcs]

theorem splitOnL_no_occ {sep l : Chars} {ch : Char} (hch : ch ∈ sep) (h : ∀ x ∈ l, x ≠ ch) :
    splitOnL sep l = [l] := by
  have hsep : sep ≠ [] := List.ne_nil_of_mem hch
  simp only [splitOnL, if_neg hsep]
  exact splitGo_no_occ hch _ l h

theorem splitGo_fuel {sep : Chars} (hsep : sep ≠ []) :
    ∀ f1 (l : Chars) f2, l.length < f1 → l.length < f2 → splitGo sep f1 l = splitGo sep f2 l := by
  have hslen : 1 ≤ sep.length := by
    cases sep
    · exact absurd rfl hsep
    · simp
  intro f1
  induction f1 with
  | zero => intro l f2 h1 _; omega
  | succ f1 ih =>
    intro l f2 h1 h2
    match l with
    | [] =>
      match f2 with
      | 0 => omega
      | f2 + 1 => rfl
    | c :: cs =>
      match f2 with
      | 0 => omega
      | f2 + 1 =>
        simp only [splitGo]
        by_cases hp : sep.isPrefixOf (c :: cs) = true
        · simp only [hp, if_true]
          have hd : ((c :: cs).drop sep.length).length < f1 := by
            simp only [List.length_drop, List.length_cons] at *
            omega
          have hd2 : ((c :: cs).drop sep.length).length < f2 := by
            simp only [List.length_drop, List.length_cons] at *
            omega
          rw [ih _ f2 hd hd2]
        · simp only [Bool.not_eq_true] at hp
          simp only [hp, Bool.false_eq_true, if_false]
          rw [ih cs f2 (by simp at h1 ⊢; omega) (by simp at h2 ⊢; omega)]

theorem splitOnL_cons_not_prefix {sep : Chars} (hsep : sep ≠ []) {c : Char} {cs : Chars}
    (hp : sep.isPrefixOf (c :: cs) = false) :
    splitOnL sep (c :: cs) =
      match splitOnL sep cs with
      | [] => [[]]
      | p :: ps => (c :: p) :: ps := by
  simp only [splitOnL, if_neg hsep]
  show splitGo sep (cs.length + 1 + 1) (c :: cs) = _
  simp only [splitGo, hp, Bool.false_eq_true, if_false]

theorem splitOnL_append_sep {sep : Chars} (hsep : sep ≠ []) (b : Chars) :
    splitOnL sep (sep ++ b) = [] :: splitOnL sep b := by
  obtain ⟨s, sep', rfl⟩ : ∃ s sep', sep = s :: sep' := by
    cases sep
    · exact absurd rfl hsep
    · exact ⟨_, _, rfl⟩
  simp only [splitOnL, if_neg hsep]
  have hcons : (s :: sep') ++ b = s :: (sep' ++ b) := List.cons_append s sep' b
  have hfuel : ((s :: sep') ++ b).length + 1 = (sep'.length + b.length + 1) + 1 := by
    simp [List.length_append]
  rw [hfuel, hcons]
  have hpre : (s :: sep').isPrefixOf (s :: (sep' ++ b)) = true := by
    rw [List.isPrefixOf_iff_prefix, ← hcons]
    exact List.prefix_append _ _
  simp only [splitGo, hpre, if_true]
  congr 1
  have hdrop : (s :: (sep' ++ b)).drop (s :: sep').length = b := by
    rw [← hcons]
    exact List.drop_left _ _
  rw [hdrop]
  exact splitGo_fuel hsep (sep'.length + b.length + 1) b (b.length + 1) (by omega) (by omega)

theorem splitGo_ne_nil (sep : Chars) : ∀ fuel (l : Chars), splitGo sep fuel l ≠ [] := by
  intro fuel
  induction fuel with
  | zero => intro l; simp [splitGo]
  | succ fuel ih =>
    intro l
    match l with
    | [] => simp [splitGo]
    | c :: cs =>
      simp only [splitGo]
      by_cases hp : sep.isPrefixOf (c :: cs) = true
      · simp [hp]
      · simp only [Bool.not_eq_true] at hp
        simp only [hp, Bool.false_eq_true, if_false]
        cases hsg : splitGo sep fuel cs <;> simp

theorem splitOnL_ne_nil (sep l : Chars) : splitOnL sep l ≠ [] := by
  by_cases hsep : sep = []
  · simp [splitOnL, hsep]
  · simp only [splitOnL, if_neg hsep]
    exact splitGo_ne_nil sep _ l

theorem marker_not_prefix {l : Chars} (h4 : l[4]? ≠ some ':') :
    markerChars.isPrefixOf l = false := by
  cases hb : markerChars.isPrefixOf l
  · rfl
  · exfalso
    rw [List.isPrefixOf_iff_prefix] at hb
    obtain ⟨t, rfl⟩ := hb
    exact h4 (by rfl)

theorem marker_not_prefix_midkey {c : Char} {a b : Chars} (hc : c ≠ ':')
    (ha : ∀ x ∈ a, x ≠ ':') :
    markerChars.isPrefixOf (c :: (a ++ (markerChars ++ b))) = false := by
  apply marker_not_prefix
  obtain _ | ⟨x1, _ | ⟨x2, _ | ⟨x3, _ | ⟨x4, r⟩⟩⟩⟩ := a
  · intro hx
    have he : (c :: (([] : Chars) ++ (markerChars ++ b)))[4]? = some 'a' := rfl
    rw [he] at hx
    exact absurd hx (by decide)
  · intro hx
    have he : (c :: (([x1] : Chars) ++ (markerChars ++ b)))[4]? = some 't' := rfl
    rw [he] at hx
    exact absurd hx (by decide)
  · intro hx
    have he : (c :: (([x1, x2] : Chars) ++ (markerChars ++ b)))[4]? = some 'a' := rfl
    rw [he] at hx
    exact absurd hx (by decide)
  · intro hx
    have he : (c :: (([x1, x2, x3] : Chars) ++ (markerChars ++ b)))[4]? = some 'd' := rfl
    rw [he] at hx
    exact absurd hx (by decide)
  · intro hx
    have he : (c :: ((x1 :: x2 :: x3 :: x4 :: r) ++ (markerChars ++ b)))[4]? = some x4 := by
      simp
    rw [he] at hx
    exact ha x4 (by simp) (Option.some.inj hx)

theorem splitOnL_marker_append {a : Chars} (b : Chars) (ha : ∀ x ∈ a, x ≠ ':') :
    splitOnL markerChars (a ++ (markerChars ++ b)) = a :: splitOnL markerChars b := by
  have hsep : markerChars ≠ [] := by decide
  induction a with
  | nil => simpa using splitOnL_append_sep hsep b
  | cons c a ih =>
    have hc : c ≠ ':' := ha c (by simp)
    have ha' : ∀ x ∈ a, x ≠ ':' := fun x hx => ha x (by simp [hx])
    have hp := marker_not_prefix_midkey hc ha' (b := b)
    rw [List.cons_append, splitOnL_cons_not_prefix hsep hp, ih ha']

theorem mem_append_special {a b : Chars} {ch : Char} (hha : ∀ x ∈ a, x ≠ ch)
    (hhb : ∀ x ∈ b, x ≠ ch) : ∀ x ∈ a ++ b, x ≠ ch := by
  intro x hx
  rcases List.mem_append.mp hx with h | h
  · exact hha x h
  · exact hhb x h

/-! ### Lemmas about `replaceFirst`, `jsToNum` and `keyOfName` -/

theorem replaceFirst_digits_png {ds : Chars} (h : ∀ c ∈ ds, isDigitCh c = true) :
    replaceFirst pngChars (ds ++ pngChars) = ds := by
  induction ds with
  | nil =>
    simp only [List.nil_append]
    decide
  | cons c cs ih =>
    have hc : c ≠ '.' := (isDigitCh_ne_special (h c (by simp))).1
    have hcs : ∀ x ∈ cs, isDigitCh x = true := fun x hx => h x (by simp [hx])
    rw [List.cons_append]
    have hp : pngChars.isPrefixOf (c :: (cs ++ pngChars)) = false := by
      cases hb : pngChars.isPrefixOf (c :: (cs ++ pngChars))
      · rfl
      · exfalso
        rw [List.isPrefixOf_iff_prefix] at hb
        obtain ⟨t, ht⟩ := hb
        have hpng : pngChars = '.' :: 'p' :: 'n' :: 'g' :: [] := by decide
        rw [hpng] at ht
        simp only [List.cons_append] at ht
        injection ht with h1 _
        exact hc h1.symm
    simp only [replaceFirst, hp, Bool.false_eq_true, if_false]
    rw [ih hcs]

theorem jsToNumPos_natRepr (n : ℕ) : jsToNumPos (natRepr n) = some ⟨(n : Int), 1⟩ := by
  have hdot : ∀ x ∈ natRepr n, x ≠ '.' := fun x hx =>
    (isDigitCh_ne_special (natRepr_digits x hx)).1
  have hsplit : splitOnL ['.'] (natRepr n) = [natRepr n] :=
    splitOnL_no_occ (by simp) hdot
  simp only [jsToNumPos, hsplit, parse_natRepr]
  rfl

theorem jsToNum_natRepr (n : ℕ) : jsToNum (natRepr n) = some ⟨(n : Int), 1⟩ := by
  have h := jsToNumPos_natRepr n
  obtain ⟨c, cs, hcc⟩ : ∃ c cs, natRepr n = c :: cs := by
    cases hr : natRepr n
    · exact absurd hr (natRepr_ne_nil n)
    · exact ⟨_, _, rfl⟩
  have hcd : isDigitCh c = true := natRepr_digits c (by rw [hcc]; simp)
  have hspec := isDigitCh_ne_special hcd
  rw [hcc] at h ⊢
  simp only [jsToNum, if_neg hspec.2.1, if_neg hspec.2.2.1]
  exact h

theorem keyOfName_canon (k : ℕ) : keyOfName (canonPng k) = some ⟨(k : Int), 1⟩ := by
  simp only [keyOfName, canonPng]
  rw [replaceFirst_digits_png natRepr_digits]
  exact jsToNum_natRepr k

theorem canonPng_inj : Function.Injective canonPng := by
  intro a b hab
  have ha := keyOfName_canon a
  rw [hab, keyOfName_canon b] at ha
  have h2 : (b : Int) = (a : Int) := congrArg (fun j => j.num) (Option.some.inj ha)
  exact_mod_cast h2.symm

/-! ### Lemmas about `insertSorted` and `insSort` -/

theorem insertSorted_perm (le : α → α → Bool) (x : α) (l : List α) :
    (insertSorted le x l).Perm (x :: l) := by
  induction l with
  | nil => exact List.Perm.refl _
  | cons y ys ih =>
    simp only [insertSorted]
    by_cases h : le y x = true
    · simp only [h, if_true]
      exact (ih.cons y).trans (List.Perm.swap x y ys)
    · simp only [h, Bool.false_eq_true, if_false]
      exact List.Perm.refl _

theorem insSort_perm (le : α → α → Bool) (l : List α) : (insSort le l).Perm l := by
  induction l with
  | nil => exact List.Perm.refl _
  | cons x xs ih =>
    exact (insertSorted_perm le x (insSort le xs)).trans (ih.cons x)

theorem insertSorted_pairwise (le : α → α → Bool)
    (htot : ∀ a b, le a b = true ∨ le b a = true)
    (htrans : ∀ a b c, le a b = true → le b c = true → le a c = true)
    (x : α) {l : List α} (h : l.Pairwise (fun a b => le a b = true)) :
    (insertSorted le x l).Pairwise (fun a b => le a b = true) := by
  induction l with
  | nil => simp [insertSorted]
  | cons y ys ih =>
    rw [List.pairwise_cons] at h
    obtain ⟨hy, hys⟩ := h
    simp only [insertSorted]
    by_cases hle : le y x = true
    · simp only [hle, if_true]
      rw [List.pairwise_cons]
      refine ⟨?_, ih hys⟩
      intro a ha
      have hmem := (insertSorted_perm le x ys).mem_iff.mp ha
      rcases List.mem_cons.mp hmem with rfl | hmem2
      · exact hle
      · exact hy a hmem2
    · simp only [hle, Bool.false_eq_true, if_false]
      have hxy : le x y = true := by
        rcases htot x y with h1 | h1
        · exact h1
        · exact absurd h1 hle
      rw [List.pairwise_cons]
      refine ⟨?_, List.pairwise_cons.mpr ⟨hy, hys⟩⟩
      intro a ha
      rcases List.mem_cons.mp ha with rfl | hmem2
      · exact hxy
      · exact htrans x y a hxy (hy a hmem2)

theorem insSort_pairwise (le : α → α → Bool)
    (htot : ∀ a b, le a b = true ∨ le b a = true)
    (htrans : ∀ a b c, le a b = true → le b c = true → le a c = true)
    (l : List α) : (insSort le l).Pairwise (fun a b => le a b = true) := by
  induction l with
  | nil => simp [insSort]
  | cons x xs ih => exact insertSorted_pairwise le htot htrans x ih

theorem insertSorted_map (f : α → β) (leA : α → α → Bool) (leB : β → β → Bool)
    (hagree : ∀ a b, leB (f a) (f b) = leA a b) (x : α) (l : List α) :
    insertSorted leB (f x) (l.map f) = (insertSorted leA x l).map f := by
  induction l with
  | nil => rfl
  | cons y ys ih =>
    simp only [List.map_cons, insertSorted, hagree y x]
    by_cases h : leA y x = true
    · simp only [h, if_true, ih, List.map_cons]
    · simp only [h, Bool.false_eq_true, if_false, List.map_cons]

theorem insSort_map (f : α → β) (leA : α → α → Bool) (leB : β → β → Bool)
    (hagree : ∀ a b, leB (f a) (f b) = leA a b) (l : List α) :
    insSort leB (l.map f) = (insSort leA l).map f := by
  induction l with
  | nil => rfl
  | cons x xs ih =>
    simp only [List.map_cons, insSort, ih]
    exact insertSorted_map f leA leB hagree x (insSort leA xs)

/-! ### Lemmas about directories as association lists -/

theorem lookupD_eq_some_of_mem {d : Dir} {nm : Chars} {c : Bytes}
    (hmem : (nm, c) ∈ d) (hnd : (d.map Prod.fst).Nodup) : lookupD d nm = some c := by
  induction d with
  | nil => simp at hmem
  | cons e es ih =>
    rw [List.map_cons, List.nodup_cons] at hnd
    obtain ⟨hnme, hnd2⟩ := hnd
    rcases List.mem_cons.mp hmem with he | hmem2
    · rw [← he]
      simp [lookupD]
    · simp only [lookupD]
      by_cases hnm : e.1 = nm
      · exfalso
        apply hnme
        rw [hnm]
        exact List.mem_map.mpr ⟨(nm, c), hmem2, rfl⟩
      · simp only [hnm, if_false]
        exact ih hmem2 hnd2

theorem eraseD_of_forall_ne {d : Dir} {nm : Chars} (h : ∀ e ∈ d, e.1 ≠ nm) :
    eraseD d nm = d := by
  simp only [eraseD]
  apply List.filter_eq_self.mpr
  intro e he
  simpa using h e he

theorem eraseD_cons_self (nm : Chars) (c : Bytes) (d : Dir) :
    eraseD ((nm, c) :: d) nm = eraseD d nm := by
  simp [eraseD]

theorem mem_of_mem_eraseD {d : Dir} {nm : Chars} {e : Chars × Bytes} (h : e ∈ eraseD d nm) :
    e ∈ d ∧ e.1 ≠ nm := by
  simp only [eraseD, List.mem_filter] at h
  exact ⟨h.1, by simpa using h.2⟩

theorem eraseD_sublist (d : Dir) (nm : Chars) : List.Sublist (eraseD d nm) d :=
  List.filter_sublist d

theorem nodup_names_append_singleton {d : Dir} {nm : Chars} {c : Bytes}
    (hnd : (d.map Prod.fst).Nodup) (hnot : ∀ e ∈ d, e.1 ≠ nm) :
    (((d ++ [(nm, c)]).map Prod.fst)).Nodup := by
  rw [List.map_append, List.nodup_append]
  refine ⟨hnd, by simp, ?_⟩
  intro a ha hb
  simp only [List.map_cons, List.map_nil, List.mem_singleton] at hb
  obtain ⟨e, he, hfst⟩ := List.mem_map.mp ha
  exact hnot e he (by rw [hfst]; exact hb)

theorem nameLe_canon (a b : ℕ) : nameLe (canonPng a) (canonPng b) = decide (a ≤ b) := by
  simp only [nameLe, keyOfName_canon a, keyOfName_canon b, JsNum.sub, JsNum.nonpos]
  apply decide_eq_decide.mpr
  constructor
  · intro h
    have : (a : Int) ≤ (b : Int) := by
      simpa using h
    exact_mod_cast this
  · intro h
    have : (a : Int) ≤ (b : Int) := by exact_mod_cast h
    simpa using this


/-! ### The rename fold on canonically named directories -/

theorem canonDir_cons (p : ℕ × Bytes) (ps : List (ℕ × Bytes)) :
    canonDir (p :: ps) = (canonPng p.1, p.2) :: canonDir ps := rfl

theorem renameAll_canonical (ps : List (ℕ × Bytes)) :
    ∀ (t : ℕ) (d done : Dir),
      ps.Pairwise (fun p q => p.1 < q.1) →
      (∀ p ∈ ps, t ≤ p.1) →
      d.Perm (canonDir ps ++ done) →
      (∀ e ∈ done, ∃ i, i < t ∧ e.1 = canonPng i) →
      (d.map Prod.fst).Nodup →
      ∃ d2,
        renameAll d ((List.enumFrom t ps).map (fun ip => (canonPng ip.2.1, canonPng ip.1)))
          = some d2 ∧
        d2.Perm (done ++ (List.enumFrom t ps).map (fun ip => (canonPng ip.1, ip.2.2))) := by
  induction ps with
  | nil =>
    intro t d done _ _ hperm _ _
    refine ⟨d, rfl, ?_⟩
    simpa using hperm
  | cons p ps ih =>
    intro t d done hsorted hge hperm hdone hnd
    rw [List.pairwise_cons] at hsorted
    obtain ⟨hplt, hps_sorted⟩ := hsorted
    have htp : t ≤ p.1 := hge p (by simp)
    have hmem : (canonPng p.1, p.2) ∈ d :=
      hperm.mem_iff.mpr (List.mem_append.mpr (Or.inl (by
        rw [canonDir_cons]; exact List.mem_cons_self _ _)))
    have hlook : lookupD d (canonPng p.1) = some p.2 := lookupD_eq_some_of_mem hmem hnd
    have hne_ps_src : ∀ e ∈ canonDir ps, e.1 ≠ canonPng p.1 := by
      intro e he
      obtain ⟨q, hq, rfl⟩ := List.mem_map.mp he
      intro hcp
      have h1 := canonPng_inj hcp
      have h2 := hplt q hq
      omega
    have hne_done_src : ∀ e ∈ done, e.1 ≠ canonPng p.1 := by
      intro e he hcp
      obtain ⟨i, hi, hei⟩ := hdone e he
      rw [hei] at hcp
      have h1 := canonPng_inj hcp
      omega
    have hne_ps_dst : ∀ e ∈ canonDir ps, e.1 ≠ canonPng t := by
      intro e he
      obtain ⟨q, hq, rfl⟩ := List.mem_map.mp he
      intro hcp
      have h1 := canonPng_inj hcp
      have h2 := hplt q hq
      omega
    have hne_done_dst : ∀ e ∈ done, e.1 ≠ canonPng t := by
      intro e he hcp
      obtain ⟨i, hi, hei⟩ := hdone e he
      rw [hei] at hcp
      have h1 := canonPng_inj hcp
      omega
    have herase1 : (eraseD d (canonPng p.1)).Perm (canonDir ps ++ done) := by
      have h2 : eraseD (canonDir (p :: ps) ++ done) (canonPng p.1) = canonDir ps ++ done := by
        rw [canonDir_cons, List.cons_append, eraseD_cons_self]
        refine eraseD_of_forall_ne ?_
        intro e he
        rcases List.mem_append.mp he with h | h
        · exact hne_ps_src e h
        · exact hne_done_src e h
      have h1 : (eraseD d (canonPng p.1)).Perm
          (eraseD (canonDir (p :: ps) ++ done) (canonPng p.1)) :=
        List.Perm.filter _ hperm
      rw [h2] at h1
      exact h1
    have herase2 : (eraseD (eraseD d (canonPng p.1)) (canonPng t)).Perm
        (canonDir ps ++ done) := by
      have h2 : eraseD (canonDir ps ++ done) (canonPng t) = canonDir ps ++ done := by
        refine eraseD_of_forall_ne ?_
        intro e he
        rcases List.mem_append.mp he with h | h
        · exact hne_ps_dst e h
        · exact hne_done_dst e h
      have h1 : (eraseD (eraseD d (canonPng p.1)) (canonPng t)).Perm
          (eraseD (canonDir ps ++ done) (canonPng t)) :=
        List.Perm.filter _ herase1
      rw [h2] at h1
      exact h1
    have hren : fsRename d (canonPng p.1) (canonPng t)
        = some (eraseD (eraseD d (canonPng p.1)) (canonPng t) ++ [(canonPng t, p.2)]) := by
      simp only [fsRename, hlook]
    have hperm2 : (eraseD (eraseD d (canonPng p.1)) (canonPng t) ++ [(canonPng t, p.2)]).Perm
        (canonDir ps ++ (done ++ [(canonPng t, p.2)])) := by
      have h1 := herase2.append_right [(canonPng t, p.2)]
      rw [List.append_assoc] at h1
      exact h1
    have hdone2 : ∀ e ∈ done ++ [(canonPng t, p.2)], ∃ i, i < t + 1 ∧ e.1 = canonPng i := by
      intro e he
      rcases List.mem_append.mp he with h | h
      · obtain ⟨i, hi, hei⟩ := hdone e h
        exact ⟨i, by omega, hei⟩
      · simp only [List.mem_singleton] at h
        subst h
        exact ⟨t, by omega, rfl⟩
    have hge2 : ∀ q ∈ ps, t + 1 ≤ q.1 := by
      intro q hq
      have h1 := hplt q hq
      omega
    have hnd2 : ((eraseD (eraseD d (canonPng p.1)) (canonPng t)
        ++ [(canonPng t, p.2)]).map Prod.fst).Nodup := by
      apply nodup_names_append_singleton
      · have hsub : List.Sublist (eraseD (eraseD d (canonPng p.1)) (canonPng t)) d :=
          (eraseD_sublist _ _).trans (eraseD_sublist _ _)
        exact List.Nodup.sublist (hsub.map Prod.fst) hnd
      · intro e he
        exact (mem_of_mem_eraseD he).2
    obtain ⟨d3, hrun, hperm3⟩ :=
      ih (t + 1) (eraseD (eraseD d (canonPng p.1)) (canonPng t) ++ [(canonPng t, p.2)])
        (done ++ [(canonPng t, p.2)]) hps_sorted hge2 hperm2 hdone2 hnd2
    refine ⟨d3, ?_, ?_⟩
    · show renameAll d ((canonPng p.1, canonPng t) ::
          (List.enumFrom (t + 1) ps).map (fun ip => (canonPng ip.2.1, canonPng ip.1)))
        = some d3
      simp only [renameAll, hren]
      exact hrun
    · have hres : (done ++ [(canonPng t, p.2)])
          ++ (List.enumFrom (t + 1) ps).map (fun ip => (canonPng ip.1, ip.2.2))
          = done ++ ((canonPng t, p.2)
            :: (List.enumFrom (t + 1) ps).map (fun ip => (canonPng ip.1, ip.2.2))) := by
        rw [List.append_assoc]
        rfl
      rw [hres] at hperm3
      exact hperm3

theorem enumFrom_map (f : α → β) (l : List α) :
    ∀ t : ℕ, List.enumFrom t (l.map f) = (List.enumFrom t l).map (fun p => (p.1, f p.2)) := by
  induction l with
  | nil => intro t; rfl
  | cons x xs ih =>
    intro t
    simp only [List.map_cons, List.enumFrom, ih (t + 1)]

theorem renamePlan_canonDir (frames : List (ℕ × Bytes)) :
    renamePlan ((canonDir frames).map Prod.fst)
      = (List.enumFrom 0 (insSort leKey frames)).map
          (fun ip => (canonPng ip.2.1, canonPng ip.1)) := by
  have hagree : ∀ p q : ℕ × Bytes,
      nameLe ((fun p : ℕ × Bytes => canonPng p.1) p) ((fun p : ℕ × Bytes => canonPng p.1) q)
        = leKey p q := by
    intro p q
    rw [nameLe_canon]
    rfl
  have hnames : (canonDir frames).map Prod.fst = frames.map (fun p => canonPng p.1) := by
    simp only [canonDir, List.map_map]
    rfl
  rw [renamePlan, hnames,
    insSort_map (fun p : ℕ × Bytes => canonPng p.1) leKey nameLe hagree frames]
  show (List.enumFrom 0 ((insSort leKey frames).map (fun p => canonPng p.1))).map
      (fun p => (p.2, canonPng p.1)) = _
  rw [enumFrom_map, List.map_map]
  rfl

theorem leKey_total : ∀ a b : ℕ × Bytes, leKey a b = true ∨ leKey b a = true := by
  intro a b
  simp only [leKey, decide_eq_true_eq]
  omega

theorem leKey_trans :
    ∀ a b c : ℕ × Bytes, leKey a b = true → leKey b c = true → leKey a c = true := by
  intro a b c
  simp only [leKey, decide_eq_true_eq]
  omega

theorem insSort_leKey_strict (frames : List (ℕ × Bytes))
    (hnd : (frames.map Prod.fst).Nodup) :
    (insSort leKey frames).Pairwise (fun p q => p.1 < q.1) := by
  have hsortedle := insSort_pairwise leKey leKey_total leKey_trans frames
  have hperm0 : (insSort leKey frames).Perm frames := insSort_perm leKey frames
  have hndkeys : ((insSort leKey frames).map Prod.fst).Nodup :=
    ((hperm0.map Prod.fst).nodup_iff).mpr hnd
  have hpair_ne : (insSort leKey frames).Pairwise (fun p q => p.1 ≠ q.1) :=
    List.pairwise_map.mp hndkeys
  refine (hsortedle.and hpair_ne).imp ?_
  intro a b h
  obtain ⟨h1, h2⟩ := h
  simp only [leKey, decide_eq_true_eq] at h1
  omega

theorem sortFrameFiles_canonical (frames : List (ℕ × Bytes))
    (hnd : (frames.map Prod.fst).Nodup) :
    ∃ d2, sortFrameFiles (canonDir frames) = some d2 ∧
      d2.Perm ((List.enumFrom 0 (insSort leKey frames)).map
        (fun ip => (canonPng ip.1, ip.2.2))) := by
  have hstrict := insSort_leKey_strict frames hnd
  have hperm0 : (insSort leKey frames).Perm frames := insSort_perm leKey frames
  have hpermd : (canonDir frames).Perm (canonDir (insSort leKey frames) ++ []) := by
    rw [List.append_nil]
    exact (hperm0.map _).symm
  have hnddir : ((canonDir frames).map Prod.fst).Nodup := by
    have heq : (canonDir frames).map Prod.fst = (frames.map Prod.fst).map canonPng := by
      simp only [canonDir, List.map_map]
      rfl
    rw [heq]
    exact hnd.map canonPng_inj
  obtain ⟨d2, hrun, hperm2⟩ :=
    renameAll_canonical (insSort leKey frames) 0 (canonDir frames) []
      hstrict (fun p _ => Nat.zero_le _) hpermd (by simp) hnddir
  refine ⟨d2, ?_, by simpa using hperm2⟩
  rw [sortFrameFiles, renamePlan_canonDir]
  exact hrun

/-! ### Claim C1: order preservation of the Frame Sequencer -/

/-- C1 counterexample: for the distinct numeric keys `-1`, `0`, `1` (arrival
order `-1, 0, 1`, contents `[1]`, `[2]`, `[3]`), running `sortFrameFiles`
leaves a directory holding only `2.png` with content `[1]`: the rename
`-1.png → 0.png` overwrites the not-yet-renamed source `0.png`, and
`0.png → 1.png` then overwrites the not-yet-renamed source `1.png`, so the
frames stored under keys `0` and `1` are silently destroyed — the claimed
final directory `0.png ↦ [1], 1.png ↦ [2], 2.png ↦ [3]` is not produced. -/
theorem C1_counterexample :
    sortFrameFiles [("-1.png".data, [1]), ("0.png".data, [2]), ("1.png".data, [3])]
      = some [("2.png".data, [1])] ∧
    ¬ ([(("2.png").data, ([1] : Bytes))] : Dir).Perm
        [("0.png".data, [1]), ("1.png".data, [2]), ("2.png".data, [3])] :=
  ⟨by decide, by decide⟩

/-- C1 (amended): for every set of frames stored under distinct
nonnegative-integer ordering keys in canonical decimal form, in arbitrary
arrival/readdir order, running the Frame Sequencer — with the issued renames
applied in the order `sortFrameFiles` issues them — leaves the session
directory containing exactly the filenames `0.png` … `(N-1).png`, where the
content of the file at index `i` equals the content originally stored under
the `i`-th smallest key, and no frame is overwritten. -/
theorem C1_sequencer_canonical_integer_keys
    (frames sorted : List (ℕ × Bytes))
    (hperm : sorted.Perm frames)
    (hsorted : (sorted.map Prod.fst).Pairwise (· < ·)) :
    ∃ d2, sortFrameFiles (canonDir frames) = some d2 ∧
      d2.Perm ((List.enumFrom 0 sorted).map (fun ip => (canonPng ip.1, ip.2.2))) := by
  have hndsorted : (sorted.map Prod.fst).Nodup :=
    hsorted.imp (fun h => Nat.ne_of_lt h)
  have hnd : (frames.map Prod.fst).Nodup := ((hperm.map Prod.fst).nodup_iff).mp hndsorted
  obtain ⟨d2, hrun, hperm2⟩ := sortFrameFiles_canonical frames hnd
  have hins_eq : insSort leKey frames = sorted := by
    have hstrict := insSort_leKey_strict frames hnd
    have hp : (insSort leKey frames).Perm sorted :=
      (insSort_perm leKey frames).trans hperm.symm
    have hs1 : (insSort leKey frames).Pairwise (fun p q : ℕ × Bytes => p.1 < q.1 ∨ p = q) :=
      hstrict.imp (fun h => Or.inl h)
    have hs2 : sorted.Pairwise (fun p q : ℕ × Bytes => p.1 < q.1 ∨ p = q) :=
      (List.pairwise_map.mp hsorted).imp (fun h => Or.inl h)
    haveI : IsAntisymm (ℕ × Bytes) (fun p q => p.1 < q.1 ∨ p = q) := by
      constructor
      intro a b h1 h2
      rcases h1 with h1 | h1
      · rcases h2 with h2 | h2
        · omega
        · exact h2.symm
      · exact h1
    exact List.eq_of_perm_of_sorted hp hs1 hs2
  rw [hins_eq] at hperm2
  exact ⟨d2, hrun, hperm2⟩

/-- C1 witness: keys 5, 3, 8 arriving out of order; the sequencer produces
`0.png ↦ [2]` (key 3), `1.png ↦ [1]` (key 5), `2.png ↦ [3]` (key 8). -/
theorem C1_sequencer_canonical_integer_keys_witness :
    ∃ d2, sortFrameFiles (canonDir [(5, [1]), (3, [2]), (8, [3])]) = some d2 ∧
      d2.Perm ((List.enumFrom 0 [((3 : ℕ), ([2] : Bytes)), (5, [1]), (8, [3])]).map
        (fun ip => (canonPng ip.1, ip.2.2))) :=
  C1_sequencer_canonical_integer_keys [(5, [1]), (3, [2]), (8, [3])]
    [(3, [2]), (5, [1]), (8, [3])] (by decide) (by decide)

/-! ### Claim C6: numeric, not lexical, ordering -/

/-- C6: the Frame Sequencer orders frames by the numeric value of the key
obtained by stripping `.png`, not lexically: for the stored keys
`{2, 10, 1}` the comparator sort yields `1.png, 2.png, 10.png` (whereas
lexical sorting would yield `1.png, 10.png, 2.png`), the issued renames are
`1.png → 0.png`, `2.png → 1.png`, `10.png → 2.png`, and running
`sortFrameFiles` produces exactly that relabelling of the contents. -/
theorem C6_numeric_not_lexical_order :
    insSort nameLe ["2.png".data, "10.png".data, "1.png".data]
      = ["1.png".data, "2.png".data, "10.png".data] ∧
    insSort (fun a b : Chars => decide (¬ b < a))
        ["2.png".data, "10.png".data, "1.png".data]
      ≠ ["1.png".data, "2.png".data, "10.png".data] ∧
    renamePlan ["2.png".data, "10.png".data, "1.png".data]
      = [("1.png".data, "0.png".data), ("2.png".data, "1.png".data),
         ("10.png".data, "2.png".data)] ∧
    sortFrameFiles [("2.png".data, [1]), ("10.png".data, [2]), ("1.png".data, [3])]
      = some [("0.png".data, [3]), ("1.png".data, [1]), ("2.png".data, [2])] :=
  ⟨by decide, by decide, by decide, by decide⟩

/-! ### Claim C9: idempotence of the Frame Sequencer on its own output -/

theorem enumFrom_keys_range'_eq {γ : Type _} :
    ∀ (sp : List (ℕ × Bytes)) (t : ℕ), sp.map Prod.fst = List.range' t sp.length →
      ∀ (f : ℕ × (ℕ × Bytes) → γ) (g : ℕ × Bytes → γ),
        (∀ i p, p.1 = i → f (i, p) = g p) →
        (List.enumFrom t sp).map f = sp.map g := by
  intro sp
  induction sp with
  | nil => intro t _ f g _; rfl
  | cons p ps ih =>
    intro t hk f g hfg
    rw [List.length_cons, List.range'_succ] at hk
    simp only [List.map_cons] at hk
    injection hk with h1 h2
    show f (t, p) :: (List.enumFrom (t + 1) ps).map f = g p :: ps.map g
    rw [hfg t p h1, ih (t + 1) h2 f g hfg]

/-- C9: the Frame Sequencer is idempotent on its own output: on a directory
whose `n` files are already canonically named `0.png` … `(n-1).png`, every
rename `sortFrameFiles` issues is a self-rename (each file is renamed to its
own current name), the run succeeds, and the directory's filenames and
contents are unchanged. -/
theorem C9_sequencer_idempotent (frames : List (ℕ × Bytes))
    (hkeys : (frames.map Prod.fst).Perm (List.range frames.length)) :
    (∀ pr ∈ renamePlan ((canonDir frames).map Prod.fst), pr.1 = pr.2) ∧
    ∃ d2, sortFrameFiles (canonDir frames) = some d2 ∧ d2.Perm (canonDir frames) := by
  have hnd : (frames.map Prod.fst).Nodup := hkeys.nodup_iff.mpr (List.nodup_range _)
  have hlen : (insSort leKey frames).length = frames.length :=
    (insSort_perm leKey frames).length_eq
  have hkeys_sorted : (insSort leKey frames).map Prod.fst
      = List.range' 0 (insSort leKey frames).length := by
    have hstrict := insSort_leKey_strict frames hnd
    have hp : ((insSort leKey frames).map Prod.fst).Perm (List.range frames.length) :=
      ((insSort_perm leKey frames).map Prod.fst).trans hkeys
    have hs1 : ((insSort leKey frames).map Prod.fst).Pairwise (· ≤ ·) :=
      (List.pairwise_map.mpr hstrict).imp (fun h => Nat.le_of_lt h)
    have hs2 : (List.range frames.length).Pairwise (fun a b : ℕ => a ≤ b) :=
      (List.pairwise_lt_range _).imp (fun h => Nat.le_of_lt h)
    have heq : (insSort leKey frames).map Prod.fst = List.range frames.length :=
      List.eq_of_perm_of_sorted hp hs1 hs2
    rw [heq, List.range_eq_range', hlen]
  constructor
  · intro pr hpr
    rw [renamePlan_canonDir] at hpr
    rw [enumFrom_keys_range'_eq (insSort leKey frames) 0 hkeys_sorted
      (fun ip => (canonPng ip.2.1, canonPng ip.1))
      (fun p => (canonPng p.1, canonPng p.1))
      (fun i p hpi => by simp only [hpi])] at hpr
    obtain ⟨q, _, rfl⟩ := List.mem_map.mp hpr
    rfl
  · obtain ⟨d2, hrun, hperm2⟩ := sortFrameFiles_canonical frames hnd
    refine ⟨d2, hrun, ?_⟩
    rw [enumFrom_keys_range'_eq (insSort leKey frames) 0 hkeys_sorted
      (fun ip => (canonPng ip.1, ip.2.2))
      (fun p => (canonPng p.1, p.2))
      (fun i p hpi => by simp only [hpi])] at hperm2
    exact hperm2.trans ((insSort_perm leKey frames).map _)

/-- C9 witness: a two-file directory `0.png ↦ [5], 1.png ↦ [6]`. -/
theorem C9_sequencer_idempotent_witness :
    (∀ pr ∈ renamePlan ((canonDir [((0 : ℕ), ([5] : Bytes)), (1, [6])]).map Prod.fst),
      pr.1 = pr.2) ∧
    ∃ d2, sortFrameFiles (canonDir [((0 : ℕ), ([5] : Bytes)), (1, [6])]) = some d2 ∧
      d2.Perm (canonDir [((0 : ℕ), ([5] : Bytes)), (1, [6])]) :=
  C9_sequencer_idempotent [(0, [5]), (1, [6])] (by decide)

/-! ### Claims C2, C4, C7: assembly pipeline, encoder exit handling, cleanup -/

/-- C2 counterexample: sequencing succeeds on a one-frame session and the
dimension probe succeeds, but the ffmpeg spawn errors: the close handler
rejects with `'Error converting frames!'`, nothing retries (the pipeline for
this session is over), and the session's frame directory still exists —
contradicting the claim that the directory is removed whether or not
encoding succeeded. -/
theorem C2_counterexample :
    closePipeline [("0.png".data, [5])]
        (.exited 0 "f: PNG image data, 4 x 4, 8-bit".data) .spawnError none
      = (⟨some [("0.png".data, [5])], none⟩, .error "Error converting frames!".data) := rfl

/-- C2 (amended): when every pipeline step succeeds — sequencing succeeds
with a nonempty directory, the `file` probe exits with output containing
dimensions, and the ffmpeg process exits — the close handler completes
successfully, the session's frame directory no longer exists, and the
artifact the encoder left at the video output path persists; that path is
not inside the session directory.  When a step fails, the remaining steps
including cleanup are skipped (see the counterexample). -/
theorem C2_cleanup_on_success
    (d d1 : Dir) (c1 c2 : Int) (out out2 m : Chars) (produced : Option Bytes)
    (outputRoot clientId : Chars)
    (hsort : sortFrameFiles d = some d1)
    (hne : d1 ≠ [])
    (hdims : findDims out = some m) :
    closePipeline d (.exited c1 out) (.exited c2 out2) produced
      = (⟨none, produced⟩, Except.ok ()) ∧
    ¬ (sessionDirPath outputRoot clientId) <+: (videoOutputPath outputRoot clientId) := by
  constructor
  · obtain ⟨e, d1', rfl⟩ : ∃ e d1', d1 = e :: d1' := by
      cases d1
      · exact absurd rfl hne
      · exact ⟨_, _, rfl⟩
    have hout : out ≠ [] := by
      intro h
      rw [h] at hdims
      exact Option.noConfusion hdims
    have hdims2 : getFrameDimensions (e :: d1') (.exited c1 out) = .ok (stripSpaces m) := by
      simp only [getFrameDimensions, List.map_cons, waitForProcess]
      rw [if_neg hout, hdims]
    have hran : ffmpegRan (e :: d1') (.exited c1 out) (.exited c2 out2) = true := by
      simp only [ffmpegRan, hdims2]
    have hconv : convertFramesToVideo (e :: d1') (.exited c1 out) (.exited c2 out2)
        = .ok () := by
      simp only [convertFramesToVideo, hdims2, waitForProcess]
    simp only [closePipeline, hsort, hconv, hran, if_true]
  · rintro ⟨t, ht⟩
    simp only [sessionDirPath, videoOutputPath] at ht
    have ht2 : outputRoot :: clientId :: t = [outputRoot, clientId ++ mp4Chars] := ht
    injection ht2 with _ h2
    injection h2 with h3 _
    have hlen := congrArg List.length h3
    rw [List.length_append] at hlen
    have hm : mp4Chars.length = 4 := by decide
    omega

/-- C2 witness: a one-frame session whose probe and encoder both exit; the
frame directory is removed and the artifact `[7]` persists. -/
theorem C2_cleanup_on_success_witness :
    closePipeline [("0.png".data, [1])] (.exited 0 "PNG image data, 2 x 2".data)
        (.exited 0 []) (some [7])
      = (⟨none, some [7]⟩, Except.ok ()) ∧
    ¬ (sessionDirPath "output".data "abc".data)
        <+: (videoOutputPath "output".data "abc".data) :=
  C2_cleanup_on_success [("0.png".data, [1])] [("0.png".data, [1])] 0 0
    "PNG image data, 2 x 2".data [] "2 x 2".data (some [7]) "output".data "abc".data
    (by decide) (by decide) (by decide)

/-- C4 (code bug, evaluated): `waitForProcess` resolves on the `'exit'` event
without inspecting the exit code, so an encoder exit with status 1 is
treated as success: `convertFramesToVideo` reports success rather than an
encoding error, and the close pipeline then deletes the frames while no
artifact was produced. -/
theorem C4_nonzero_exit_treated_as_success :
    waitForProcess (.exited 1 "x".data) = .ok "x".data ∧
    convertFramesToVideo [("0.png".data, [5])]
        (.exited 0 "f: PNG image data, 4 x 4, 8-bit".data) (.exited 1 []) = .ok () ∧
    closePipeline [("0.png".data, [5])]
        (.exited 0 "f: PNG image data, 4 x 4, 8-bit".data) (.exited 1 []) none
      = (⟨none, none⟩, .ok ()) :=
  ⟨rfl, rfl, rfl⟩

/-- C7: on a session that ends with zero stored frames the Frame Sequencer
issues no renames and completes successfully on the empty directory, and the
Video Assembler then fails with the explicit error
`'Error converting frames!'` (the dimension probe's `filenames[0]` is
undefined, so `path.join` throws inside the `try`), producing no video
artifact and leaving the close handler's pipeline aborted — for every
behaviour of the external process oracles, with every step a total function
(no hang). -/
theorem C7_empty_session (fileProc ffmpegProc : ProcOutcome) (produced : Option Bytes) :
    renamePlan (([] : Dir).map Prod.fst) = [] ∧
    sortFrameFiles [] = some [] ∧
    closePipeline [] fileProc ffmpegProc produced
      = (⟨some [], none⟩, .error "Error converting frames!".data) :=
  ⟨rfl, rfl, rfl⟩

/-! ### Claim C3: the session-end trigger -/

theorem pipelineRuns_message (fileProc ffmpegProc : ProcOutcome) (produced : Option Bytes)
    (m : Chars) (st : SessionState) :
    (handleEvent fileProc ffmpegProc produced st (SessionEvent.message m)).pipelineRuns
      = st.pipelineRuns := by
  rcases hd : st.fs.frameDir with _ | d
  · simp [handleEvent, hd]
  · rcases hw : writeFrameToFile m d with _ | d2
    · simp [handleEvent, hd, hw]
    · simp [handleEvent, hd, hw]

theorem pipelineRuns_foldl_messages (fileProc ffmpegProc : ProcOutcome)
    (produced : Option Bytes) (msgs : List Chars) :
    ∀ st : SessionState,
      (List.foldl (handleEvent fileProc ffmpegProc produced) st
        (msgs.map SessionEvent.message)).pipelineRuns = st.pipelineRuns := by
  induction msgs with
  | nil => intro st; rfl
  | cons m ms ih =>
    intro st
    rw [List.map_cons, List.foldl_cons, ih, pipelineRuns_message]

/-- C3 counterexample: delivering the explicit termination signal (a "done"
text message) does not trigger the assembly pipeline and stores nothing: the
code has no reserved "done" message, it is handled as a frame message whose
write attempt fails.  After processing it, the pipeline has run zero times
and the session directory is unchanged — the claim's "the first trigger
moves the session from Receiving to Done and starts assembly" fails when the
first trigger is the explicit signal. -/
theorem C3_counterexample :
    (runSession .spawnError .spawnError none
        [SessionEvent.message "done".data]).pipelineRuns = 0 ∧
    (runSession .spawnError .spawnError none
        [SessionEvent.message "done".data]).fs.frameDir = some [] :=
  ⟨rfl, rfl⟩

/-- C3 (amended): the assembly pipeline is invoked exactly once per session,
and only by the `'close'` event: for any sequence of delivered messages
(including any "done" text, which is handled as a frame message and triggers
nothing) followed by the single close event the WebSocket emits, the
pipeline-invocation count is exactly 1. -/
theorem C3_close_invokes_pipeline_once (msgs : List Chars)
    (fileProc ffmpegProc : ProcOutcome) (produced : Option Bytes) :
    (runSession fileProc ffmpegProc produced
      (msgs.map SessionEvent.message ++ [SessionEvent.close])).pipelineRuns = 1 := by
  rw [runSession, List.foldl_append]
  set st := List.foldl (handleEvent fileProc ffmpegProc produced) initialSession
    (msgs.map SessionEvent.message) with hst
  have hruns : st.pipelineRuns = 0 := by
    rw [hst]
    exact pipelineRuns_foldl_messages fileProc ffmpegProc produced msgs initialSession
  show (handleEvent fileProc ffmpegProc produced st SessionEvent.close).pipelineRuns = 1
  rcases hd : st.fs.frameDir with _ | d
  · simp [handleEvent, hd, hruns]
  · simp [handleEvent, hd, hruns]

/-! ### Claims C5, C8, C10: the frame-storing operation -/

theorem writeFrame_split (key rest : Chars) (d : Dir) (hkey : ∀ x ∈ key, x ≠ ':') :
    writeFrameToFile (key ++ (markerChars ++ rest)) d
      = some (dirWrite d (key ++ pngChars)
          (b64decode ((splitOnL markerChars rest).headI))) := by
  have hsplit1 := splitOnL_marker_append rest hkey
  obtain ⟨p0, ps, hps⟩ : ∃ p0 ps, splitOnL markerChars rest = p0 :: ps := by
    cases hs : splitOnL markerChars rest
    · exact absurd hs (splitOnL_ne_nil _ _)
    · exact ⟨_, _, rfl⟩
  simp only [writeFrameToFile, hsplit1, hps, List.headI]

theorem lookupD_append_ne {d : Dir} {nm : Chars} (h : ∀ e ∈ d, e.1 ≠ nm) (l2 : Dir) :
    lookupD (d ++ l2) nm = lookupD l2 nm := by
  induction d with
  | nil => rfl
  | cons e es ih =>
    simp only [List.cons_append, lookupD]
    rw [if_neg (h e (by simp))]
    exact ih (fun x hx => h x (by simp [hx]))

theorem lookupD_dirWrite_self (d : Dir) (nm : Chars) (c : Bytes) :
    lookupD (dirWrite d nm c) nm = some c := by
  rw [dirWrite, lookupD_append_ne (fun e he => (mem_of_mem_eraseD he).2)]
  simp [lookupD]

/-- C5 counterexample: for the message `1 ++ marker ++ AA ++ marker ++ BB`,
which contains the marker twice, the code stores the decoding of `AA` — the
segment between the first and second marker occurrences, because the
destructuring takes `split(...)[1]` — under `1.png`; that differs from the
base64-decoding of the entire remainder `AA ++ marker ++ BB` after the first
occurrence, which the claim prescribes. -/
theorem C5_counterexample :
    writeFrameToFile
        ("1".data ++ markerChars ++ "AA".data ++ markerChars ++ "BB".data) []
      = some [("1.png".data, b64decode "AA".data)] ∧
    b64decode "AA".data ≠ b64decode ("AA".data ++ markerChars ++ "BB".data) :=
  ⟨by decide, by decide⟩

/-- C5 (amended): for an inbound message `key ++ marker ++ img ++ tail` in
which neither the key nor `img` contains `':'` (hence no marker occurrence),
and `tail` either is empty or starts with a further occurrence of the
marker, the frame-storing operation splits on the marker, takes the prefix
before the first occurrence as the ordering key, base64-decodes the segment
between the first and second occurrences — the entire remainder when the
marker occurs exactly once — and writes the decoded bytes verbatim to
`<sessionDir>/<key>.png`. -/
theorem C5_store_frame_between_markers (key img tail : Chars) (d : Dir)
    (hkey : ∀ x ∈ key, x ≠ ':')
    (himg : ∀ x ∈ img, x ≠ ':')
    (htail : tail = [] ∨ ∃ t2, tail = markerChars ++ t2) :
    writeFrameToFile (key ++ (markerChars ++ (img ++ tail))) d
      = some (dirWrite d (key ++ pngChars) (b64decode img)) := by
  rw [writeFrame_split key (img ++ tail) d hkey]
  rcases htail with rfl | ⟨t2, rfl⟩
  · rw [List.append_nil, splitOnL_no_occ (by decide) himg]
    rfl
  · rw [splitOnL_marker_append t2 himg]
    rfl

/-- C5 witness: key `7`, image segment `AA`, followed by a second marker
occurrence and junk `ZZ`. -/
theorem C5_store_frame_between_markers_witness :
    writeFrameToFile
        ("7".data ++ (markerChars ++ ("AA".data ++ (markerChars ++ "ZZ".data)))) []
      = some (dirWrite [] ("7".data ++ pngChars) (b64decode "AA".data)) :=
  C5_store_frame_between_markers "7".data "AA".data (markerChars ++ "ZZ".data) []
    (by decide) (by decide) (Or.inr ⟨"ZZ".data, rfl⟩)

theorem isB64Sym_ne_colon {c : Char} (h : isB64Sym c = true) : c ≠ ':' := by
  rintro rfl
  revert h
  decide

/-- C8: for every valid base64 payload (characters from the base64 alphabet
plus padding), storing the frame message with key `42` and that payload,
then reading back `<sessionDir>/42.png`, yields bytes identical to the
base64-decoding of the payload. -/
theorem C8_write_read_roundtrip (payload : Chars) (d : Dir)
    (hval : ∀ x ∈ payload, isB64Sym x = true) :
    ∃ d2, writeFrameToFile ("42".data ++ (markerChars ++ payload)) d = some d2 ∧
      lookupD d2 "42.png".data = some (b64decode payload) := by
  have hpay : ∀ x ∈ payload, x ≠ ':' := fun x hx => isB64Sym_ne_colon (hval x hx)
  have hw := writeFrame_split "42".data payload d (by decide)
  rw [splitOnL_no_occ (by decide) hpay] at hw
  refine ⟨_, hw, ?_⟩
  have hname : "42".data ++ pngChars = "42.png".data := by decide
  rw [← hname]
  exact lookupD_dirWrite_self d _ _

/-- C8 witness: a one-pixel PNG's base64 payload. -/
theorem C8_write_read_roundtrip_witness :
    ∃ d2, writeFrameToFile ("42".data ++ (markerChars ++ "iVBORw0KGgo=".data)) [] = some d2 ∧
      lookupD d2 "42.png".data = some (b64decode "iVBORw0KGgo=".data) :=
  C8_write_read_roundtrip "iVBORw0KGgo=".data [] (by decide)

theorem mem_of_mem_eraseP {st : Store} {p : Path} {e : Path × Bytes} (h : e ∈ eraseP st p) :
    e ∈ st ∧ e.1 ≠ p := by
  simp only [eraseP, List.mem_filter] at h
  exact ⟨h.1, by simpa using h.2⟩

theorem lookupP_append_ne {st : Store} {p : Path} (h : ∀ e ∈ st, e.1 ≠ p) (l2 : Store) :
    lookupP (st ++ l2) p = lookupP l2 p := by
  induction st with
  | nil => rfl
  | cons e es ih =>
    simp only [List.cons_append, lookupP]
    rw [if_neg (h e (by simp))]
    exact ih (fun x hx => h x (by simp [hx]))

theorem lookupP_storeWrite_self (st : Store) (p : Path) (c : Bytes) :
    lookupP (storeWrite st p c) p = some c := by
  rw [storeWrite, lookupP_append_ne (fun e he => (mem_of_mem_eraseP he).2)]
  simp [lookupP]

theorem lookupP_append_single_ne (l : Store) {p q : Path} (hne : q ≠ p) (c : Bytes) :
    lookupP (l ++ [(p, c)]) q = lookupP l q := by
  induction l with
  | nil =>
    simp only [List.nil_append, lookupP]
    rw [if_neg (fun h => hne h.symm)]
  | cons e es ih =>
    simp only [List.cons_append, lookupP]
    by_cases he : e.1 = q
    · simp [he]
    · simp only [he, if_false]
      exact ih

theorem lookupP_eraseP_ne (st : Store) {p q : Path} (h : q ≠ p) :
    lookupP (eraseP st p) q = lookupP st q := by
  induction st with
  | nil => rfl
  | cons e es ih =>
    by_cases hep : e.1 = p
    · have hfilter : eraseP (e :: es) p = eraseP es p := by
        simp [eraseP, hep]
      rw [hfilter, ih]
      have heq : e.1 ≠ q := by
        rw [hep]
        exact fun hx => h hx.symm
      simp only [lookupP, if_neg heq]
    · have hfilter : eraseP (e :: es) p = e :: eraseP es p := by
        simp [eraseP, hep]
      rw [hfilter]
      simp only [lookupP]
      by_cases heq : e.1 = q
      · simp [heq]
      · simp only [heq, if_false]
        exact ih

theorem lookupP_storeWrite_ne {st : Store} {p q : Path} (hne : q ≠ p) (c : Bytes) :
    lookupP (storeWrite st p c) q = lookupP st q := by
  rw [storeWrite, lookupP_append_single_ne _ hne, lookupP_eraseP_ne st hne]

theorem normalizeSegs_normal_aux (l : List Chars) :
    ∀ acc : List Chars,
      (∀ s ∈ l, s ≠ [] ∧ s ≠ dotSeg ∧ s ≠ dotdot) →
      List.foldl
        (fun acc seg =>
          if seg = [] ∨ seg = dotSeg then acc
          else if seg = dotdot then acc.dropLast else acc ++ [seg])
        acc l = acc ++ l := by
  induction l with
  | nil => intro acc _; simp
  | cons s ss ih =>
    intro acc h
    obtain ⟨h1, h2, h3⟩ := h s (by simp)
    simp only [List.foldl_cons]
    rw [if_neg (by simp [h1, h2]), if_neg h3, ih _ (fun x hx => h x (by simp [hx]))]
    simp

theorem normalizeSegs_normal {l : List Chars}
    (h : ∀ s ∈ l, s ≠ [] ∧ s ≠ dotSeg ∧ s ≠ dotdot) : normalizeSegs l = l := by
  rw [normalizeSegs, normalizeSegs_normal_aux l [] h]
  simp

theorem pathJoin_single_seg {dir : Path} {rel : Chars}
    (hdir : ∀ s ∈ dir, s ≠ [] ∧ s ≠ dotSeg ∧ s ≠ dotdot)
    (hslash : ∀ x ∈ rel, x ≠ '/')
    (hrel1 : rel ≠ []) (hrel2 : rel ≠ dotSeg) (hrel3 : rel ≠ dotdot) :
    pathJoin dir rel = dir ++ [rel] := by
  rw [pathJoin, splitSlash, splitOnL_no_occ (by simp) hslash]
  refine normalizeSegs_normal ?_
  intro s hs
  rcases List.mem_append.mp hs with h | h
  · exact hdir s h
  · simp only [List.mem_singleton] at h
    subst h
    exact ⟨hrel1, hrel2, hrel3⟩

/-- C10 counterexample: a frame message whose ordering key is `../B/0`
written in session `A` resolves — through `path.join`'s normalization of the
`..` segment — to session `B`'s file `0.png` and overwrites it: another
session's directory is changed by the call, refuting the claimed isolation
for arbitrary keys. -/
theorem C10_counterexample :
    writeFrameToFileFS ("../B/0".data ++ markerChars ++ "AA".data)
        ["output".data, "A".data] [(["output".data, "B".data, "0.png".data], [9])]
      = some [(["output".data, "B".data, "0.png".data], b64decode "AA".data)] ∧
    b64decode "AA".data ≠ [9] :=
  ⟨by decide, by decide⟩

/-- C10 (amended): for every inbound frame message whose ordering key
contains no `':'` and no `'/'`, the frame-storing operation creates or
overwrites exactly the single file `<sessionDir>/<key>.png` (for a
session directory in normal form): reading that path back yields the newly
decoded bytes, and every other path in the store — every other file of this
session's directory and every file of every other session's directory — is
unchanged by the call.  For keys containing `'/'` the written path can
escape the session directory (see the counterexample). -/
theorem C10_write_frame_effect (key rest : Chars) (sessionDir : Path) (st : Store)
    (hkey_colon : ∀ x ∈ key, x ≠ ':')
    (hkey_slash : ∀ x ∈ key, x ≠ '/')
    (hdir : ∀ s ∈ sessionDir, s ≠ [] ∧ s ≠ dotSeg ∧ s ≠ dotdot) :
    ∃ st2, writeFrameToFileFS (key ++ (markerChars ++ rest)) sessionDir st = some st2 ∧
      lookupP st2 (sessionDir ++ [key ++ pngChars])
        = some (b64decode ((splitOnL markerChars rest).headI)) ∧
      ∀ q : Path, q ≠ sessionDir ++ [key ++ pngChars] → lookupP st2 q = lookupP st q := by
  have hsplit1 := splitOnL_marker_append rest hkey_colon
  obtain ⟨p0, ps, hps⟩ : ∃ p0 ps, splitOnL markerChars rest = p0 :: ps := by
    cases hs : splitOnL markerChars rest
    · exact absurd hs (splitOnL_ne_nil _ _)
    · exact ⟨_, _, rfl⟩
  have hpj : pathJoin sessionDir (key ++ pngChars) = sessionDir ++ [key ++ pngChars] := by
    apply pathJoin_single_seg hdir
    · intro x hx
      rcases List.mem_append.mp hx with h | h
      · exact hkey_slash x h
      · exact (show ∀ x ∈ pngChars, x ≠ '/' by decide) x h
    · intro h
      exact absurd (List.append_eq_nil.mp h).2 (by decide)
    · intro h
      have hl := congrArg List.length h
      rw [List.length_append] at hl
      have h4 : pngChars.length = 4 := by decide
      have h1 : dotSeg.length = 1 := by decide
      omega
    · intro h
      have hl := congrArg List.length h
      rw [List.length_append] at hl
      have h4 : pngChars.length = 4 := by decide
      have h2 : dotdot.length = 2 := by decide
      omega
  refine ⟨storeWrite st (pathJoin sessionDir (key ++ pngChars)) (b64decode p0), ?_, ?_, ?_⟩
  · simp only [writeFrameToFileFS, hsplit1, hps]
  · rw [hps, hpj, List.headI]
    exact lookupP_storeWrite_self st _ _
  · intro q hq
    rw [hpj]
    exact lookupP_storeWrite_ne (by rw [← hpj] at hq; exact fun hx => hq (hpj ▸ hx)) _

/-- C10 witness: key `9` with payload `AA` in session `output/A` over an
empty store. -/
theorem C10_write_frame_effect_witness :
    ∃ st2, writeFrameToFileFS ("9".data ++ (markerChars ++ "AA".data))
        ["output".data, "A".data] [] = some st2 ∧
      lookupP st2 (["output".data, "A".data] ++ ["9".data ++ pngChars])
        = some (b64decode ((splitOnL markerChars "AA".data).headI)) ∧
      ∀ q : Path, q ≠ ["output".data, "A".data] ++ ["9".data ++ pngChars] →
        lookupP st2 q = lookupP [] q :=
  C10_write_frame_effect "9".data "AA".data ["output".data, "A".data] []
    (by decide) (by decide) (by decide)

end CanvasFrames
